import Mathlib

/-!
Shallow embedding of `src/pokecache/pokecache.go` (package `pokecache`).

Modelling choices, all taken from the Go source:
* Time is modelled as `Int`, counting nanoseconds like Go's `time.Time` /
  `time.Duration`.  Functions that call `time.Now()` (`Add`, `Reap`) take the
  current instant `now` as an explicit parameter.  `time.Since(t)` is `now - t`.
* The Go map `map[string]cacheEntry` is modelled as an association list with
  the Go map operations: assignment replaces the binding of an existing key
  (or appends a fresh one), lookup returns the binding of the key if present,
  and `delete` inside a `range` loop removes exactly the bindings for which the
  loop body calls `delete` (modelled by `List.filter` with the kept predicate).
  A Go map never holds two bindings for one key; `keysNodup` states that
  invariant where a theorem needs it.
* `Get` is embedded in state-passing style: it returns the Go result
  (`[]byte, error` as `Except String (List Nat)`) together with the cache state
  after the call, so that its frame property is a theorem, not a typing
  artefact.
* Payloads (`[]byte`) are opaque byte sequences, modelled as `List Nat`.
-/

namespace Pokecache

/-- Go `time.Minute` in nanoseconds (`time.Duration` units). -/
def minute : Int := 60 * 1000000000

/-- The staleness threshold hardcoded in `Cache.Reap`: `5 * time.Minute`. -/
def ttl : Int := 5 * minute

/-- The sleep period hardcoded in `Cache.ReapLoop`: `5 * time.Minute`. -/
def sweepInterval : Int := 5 * minute

/-- Go `cacheEntry`: creation timestamp and stored bytes. -/
structure cacheEntry where
  createdAt : Int
  data : List Nat
  deriving DecidableEq

/-- The contents of the Go map `map[string]cacheEntry`. -/
abbrev Entries := List (String × cacheEntry)

/-- Go map assignment `c.entries[key] = e`: replace the binding of `key` if
present, otherwise add a fresh binding. -/
def updateEntries : Entries → String → cacheEntry → Entries
  | [], k, e => [(k, e)]
  | (k0, e0) :: rest, k, e =>
      if k0 = k then (k, e) :: rest else (k0, e0) :: updateEntries rest k e

/-- Go map lookup `entry, ok := c.entries[key]` (`none` is `ok == false`). -/
def lookupEntry : Entries → String → Option cacheEntry
  | [], _ => none
  | (k0, e) :: rest, k => if k0 = k then some e else lookupEntry rest k

/-- A Go map holds at most one binding per key. -/
def keysNodup (l : Entries) : Prop := (l.map Prod.fst).Nodup

instance (l : Entries) : Decidable (keysNodup l) := by
  unfold keysNodup; infer_instance

/-- Go `Cache`: the entries map.  (The mutex only serialises access and has no
sequential content; the embedding is of the code inside the critical
sections.) -/
structure Cache where
  entries : Entries
  deriving DecidableEq

/-- `Cache.Add`: stores `cacheEntry{createdAt: time.Now(), data: data}` under
`key` and returns `nil` (modelled as `none`).  `now` is the value of
`time.Now()` at the call. -/
def Cache.Add (c : Cache) (now : Int) (key : String) (data : List Nat) :
    Cache × Option String :=
  (⟨updateEntries c.entries key ⟨now, data⟩⟩, none)

/-- `Cache.Get`: looks `key` up; on a hit returns `entry.data` with a `nil`
error, on a miss returns the error `key not found`.  The second component is
the cache state when the call returns — the body writes nothing. -/
def Cache.Get (c : Cache) (key : String) : Except String (List Nat) × Cache :=
  match lookupEntry c.entries key with
  | none => (Except.error "key not found", c)
  | some entry => (Except.ok entry.data, c)

/-- `Cache.Reap`: the `range` loop deletes every entry with
`time.Since(entry.createdAt) > 5*time.Minute`; the entries kept are exactly
those for which that test is false.  `now` is the value of `time.Now()`. -/
def Cache.Reap (c : Cache) (now : Int) : Cache :=
  ⟨c.entries.filter (fun q => ! decide (now - q.2.createdAt > ttl))⟩

/-- `NewCache`: a cache with an empty map (`make(map[string]cacheEntry)`).
The `go c.ReapLoop()` side effect is modelled by `NewCacheProc` below. -/
def NewCache : Cache := ⟨[]⟩

/-- A finite burst of `Reap` sweeps, given the `time.Now()` instant of each
sweep. -/
def runSweeps (c : Cache) (ts : List Int) : Cache := ts.foldl Cache.Reap c

/-- The state after the first `n` sweeps of a reap loop whose `i`-th sweep
observes `time.Now() = sched i`. -/
def applySweeps (c : Cache) (sched : Nat → Int) : Nat → Cache
  | 0 => c
  | n + 1 => (applySweeps c sched n).Reap (sched n)

/-- The ideal reap loop schedule: the loop starts at time 0 and its `i`-th
sweep runs after exactly `i + 1` sleeps of `sweepInterval`, with zero
scheduling slack. -/
def idealSched (i : Nat) : Int := ((i : Int) + 1) * sweepInterval

/-- A state-changing call on the cache: `Add` at some instant, or a `Reap`
sweep at some instant.  (`Get` changes nothing; see `get_no_side_effect`.) -/
inductive Op where
  | add (now : Int) (key : String) (data : List Nat)
  | reap (now : Int)
  deriving DecidableEq

/-- Apply one call to the cache state. -/
def applyOp (c : Cache) : Op → Cache
  | .add now k d => (c.Add now k d).1
  | .reap now => c.Reap now

/-- The cache state after a history of calls performed on a fresh cache. -/
def runOps (ops : List Op) : Cache := ops.foldl applyOp NewCache

/-- Whether a call is an `Add` with the given key. -/
def Op.addsKey : Op → String → Bool
  | .add _ k0 _, k => k0 = k
  | .reap _, _ => false

/-- Process-level view of one cache instance: the cache state plus the number
of `ReapLoop` activities currently running for it. -/
structure CacheProc where
  cache : Cache
  reapLoops : Nat
  deriving DecidableEq

/-- `NewCache` at process level: builds the empty cache and executes
`go c.ReapLoop()`, which starts exactly one reap loop. -/
def NewCacheProc : CacheProc := ⟨NewCache, 1⟩

/-- Invoking the exported method `ReapLoop` on the cache: its body
`for { time.Sleep(5 * time.Minute); c.Reap() }` has no guard, flag or
once-wrapper, so every invocation starts one more loop that never returns. -/
def CacheProc.callReapLoop (s : CacheProc) : CacheProc :=
  ⟨s.cache, s.reapLoops + 1⟩

/-! ### Lemmas about the map operations -/

theorem lookup_update_self (l : Entries) (k : String) (e : cacheEntry) :
    lookupEntry (updateEntries l k e) k = some e := by
  induction l with
  | nil => simp [updateEntries, lookupEntry]
  | cons q rest ih =>
      obtain ⟨k0, e0⟩ := q
      by_cases h : k0 = k <;> simp [updateEntries, lookupEntry, h, ih]

theorem lookup_update_other (l : Entries) (k k0 : String) (e : cacheEntry)
    (h : k0 ≠ k) : lookupEntry (updateEntries l k0 e) k = lookupEntry l k := by
  induction l with
  | nil => simp [updateEntries, lookupEntry, h]
  | cons q rest ih =>
      obtain ⟨k1, e1⟩ := q
      by_cases h1 : k1 = k0
      · subst h1; simp [updateEntries, lookupEntry, h]
      · simp [updateEntries, lookupEntry, h1, ih]

theorem lookup_filter_some (l : Entries) (k : String) (e : cacheEntry)
    (pr : String × cacheEntry → Bool)
    (hl : lookupEntry l k = some e) (hp : pr (k, e) = true) :
    lookupEntry (l.filter pr) k = some e := by
  induction l with
  | nil => simp [lookupEntry] at hl
  | cons q rest ih =>
      obtain ⟨k0, e0⟩ := q
      by_cases h : k0 = k
      · subst h
        have he : e0 = e := by simpa [lookupEntry] using hl
        subst he
        simp [List.filter, hp, lookupEntry]
      · simp only [lookupEntry, if_neg h] at hl
        cases hpr : pr (k0, e0) <;>
          simp [List.filter, hpr, lookupEntry, h, ih hl]

theorem lookup_filter_none (l : Entries) (k : String)
    (pr : String × cacheEntry → Bool) (hl : lookupEntry l k = none) :
    lookupEntry (l.filter pr) k = none := by
  induction l with
  | nil => simp [lookupEntry]
  | cons q rest ih =>
      obtain ⟨k0, e0⟩ := q
      by_cases h : k0 = k
      · subst h; simp [lookupEntry] at hl
      · simp only [lookupEntry, if_neg h] at hl
        cases hpr : pr (k0, e0) <;>
          simp [List.filter, hpr, lookupEntry, h, ih hl]

theorem lookup_none_of_key_not_mem (l : Entries) (k : String)
    (h : k ∉ l.map Prod.fst) : lookupEntry l k = none := by
  induction l with
  | nil => simp [lookupEntry]
  | cons q rest ih =>
      obtain ⟨k0, e0⟩ := q
      simp only [List.map_cons, List.mem_cons] at h
      push_neg at h
      simp [lookupEntry, Ne.symm h.1, ih h.2]

theorem lookup_filter_killed (l : Entries) (k : String) (e : cacheEntry)
    (pr : String × cacheEntry → Bool) (hnd : keysNodup l)
    (hl : lookupEntry l k = some e) (hp : pr (k, e) = false) :
    lookupEntry (l.filter pr) k = none := by
  induction l with
  | nil => simp [lookupEntry] at hl
  | cons q rest ih =>
      obtain ⟨k0, e0⟩ := q
      have hnd0 : k0 ∉ rest.map Prod.fst := by
        have := hnd
        simp only [keysNodup, List.map_cons, List.nodup_cons] at this
        exact this.1
      have hndr : keysNodup rest := by
        have := hnd
        simp only [keysNodup, List.map_cons, List.nodup_cons] at this
        exact this.2
      by_cases h : k0 = k
      · subst h
        have he : e0 = e := by simpa [lookupEntry] using hl
        subst he
        simp only [List.filter, hp]
        exact lookup_filter_none rest k0 pr (lookup_none_of_key_not_mem rest k0 hnd0)
      · simp only [lookupEntry, if_neg h] at hl
        cases hpr : pr (k0, e0) <;>
          simp [List.filter, hpr, lookupEntry, h, ih hndr hl]

theorem update_keys (l : Entries) (k : String) (e : cacheEntry) :
    (updateEntries l k e).map Prod.fst =
      if k ∈ l.map Prod.fst then l.map Prod.fst
      else l.map Prod.fst ++ [k] := by
  induction l with
  | nil => simp [updateEntries]
  | cons q rest ih =>
      obtain ⟨k0, e0⟩ := q
      by_cases h : k0 = k
      · subst h; simp [updateEntries]
      · by_cases hm : k ∈ rest.map Prod.fst <;>
          simp [updateEntries, h, ih, Ne.symm h, hm]

theorem keysNodup_update (l : Entries) (k : String) (e : cacheEntry)
    (h : keysNodup l) : keysNodup (updateEntries l k e) := by
  unfold keysNodup at h ⊢
  rw [update_keys]
  by_cases hm : k ∈ l.map Prod.fst
  · simpa [hm] using h
  · simp [hm, List.nodup_append, h]

theorem keysNodup_filter (l : Entries) (pr : String × cacheEntry → Bool)
    (h : keysNodup l) : keysNodup (l.filter pr) :=
  List.Nodup.sublist (List.Sublist.map Prod.fst (List.filter_sublist l)) h

theorem filter_key_nil (l : Entries) (k : String) (h : k ∉ l.map Prod.fst) :
    l.filter (fun q => decide (q.1 = k)) = [] := by
  induction l with
  | nil => simp
  | cons q rest ih =>
      obtain ⟨k0, e0⟩ := q
      simp only [List.map_cons, List.mem_cons] at h
      push_neg at h
      simp [List.filter, Ne.symm h.1, ih h.2]

theorem filter_key_update (l : Entries) (k : String) (e : cacheEntry)
    (hnd : keysNodup l) :
    (updateEntries l k e).filter (fun q => decide (q.1 = k)) = [(k, e)] := by
  induction l with
  | nil => simp [updateEntries]
  | cons q rest ih =>
      obtain ⟨k0, e0⟩ := q
      simp only [keysNodup, List.map_cons, List.nodup_cons] at hnd
      by_cases h : k0 = k
      · subst h
        simp only [updateEntries, if_pos rfl, List.filter]
        simp [filter_key_nil rest k0 hnd.1]
      · simp only [updateEntries, if_neg h, List.filter]
        simp [h, ih hnd.2]

theorem runSweeps_lookup (k : String) (e : cacheEntry) :
    ∀ (ts : List Int) (c : Cache), lookupEntry c.entries k = some e →
      (∀ t ∈ ts, t - e.createdAt ≤ ttl) →
      lookupEntry (runSweeps c ts).entries k = some e := by
  intro ts
  induction ts with
  | nil => intro c hl _; simpa [runSweeps] using hl
  | cons t ts ih =>
      intro c hl hts
      have h1 : lookupEntry (c.Reap t).entries k = some e := by
        apply lookup_filter_some _ _ _ _ hl
        simpa [not_lt] using hts t (List.mem_cons_self t ts)
      have h2 := ih (c.Reap t) h1 (fun u hu => hts u (List.mem_cons_of_mem _ hu))
      simpa [runSweeps] using h2

theorem runOps_lookup_none (k : String) :
    ∀ (ops : List Op) (c : Cache), lookupEntry c.entries k = none →
      (∀ o ∈ ops, Op.addsKey o k = false) →
      lookupEntry (ops.foldl applyOp c).entries k = none := by
  intro ops
  induction ops with
  | nil => intro c hl _; simpa using hl
  | cons o ops ih =>
      intro c hl hops
      have hstep : lookupEntry (applyOp c o).entries k = none := by
        cases o with
        | add now k0 d =>
            have hne : k0 ≠ k := by
              simpa [Op.addsKey] using hops _ (List.mem_cons_self _ _)
            simpa [applyOp, Cache.Add]
              using (lookup_update_other c.entries k k0 ⟨now, d⟩ hne).trans hl
        | reap now =>
            simpa [applyOp, Cache.Reap] using
              lookup_filter_none c.entries k
                (fun q => ! decide (now - q.2.createdAt > ttl)) hl
      have h2 := ih (applyOp c o) hstep
        (fun o2 hm => hops o2 (List.mem_cons_of_mem _ hm))
      simpa using h2

theorem applySweeps_nodup (c : Cache) (sched : Nat → Int)
    (h : keysNodup c.entries) :
    ∀ n, keysNodup (applySweeps c sched n).entries := by
  intro n
  induction n with
  | zero => simpa [applySweeps] using h
  | succ n ih =>
      show keysNodup (((applySweeps c sched n).Reap (sched n)).entries)
      exact keysNodup_filter _ _ ih

theorem applySweeps_lookup_cases (c : Cache) (sched : Nat → Int) (k : String)
    (e : cacheEntry) (hnd : keysNodup c.entries)
    (hl : lookupEntry c.entries k = some e) :
    ∀ n, lookupEntry (applySweeps c sched n).entries k = some e ∨
      lookupEntry (applySweeps c sched n).entries k = none := by
  intro n
  induction n with
  | zero => left; simpa [applySweeps] using hl
  | succ n ih =>
      rcases ih with h1 | h1
      · by_cases hp : sched n - e.createdAt ≤ ttl
        · left
          show lookupEntry (((applySweeps c sched n).Reap (sched n)).entries) k =
            some e
          apply lookup_filter_some _ _ _ _ h1
          simpa [not_lt] using hp
        · right
          show lookupEntry (((applySweeps c sched n).Reap (sched n)).entries) k =
            none
          apply lookup_filter_killed _ _ e _ (applySweeps_nodup c sched hnd n) h1
          simpa using not_le.mp hp
      · right
        show lookupEntry (((applySweeps c sched n).Reap (sched n)).entries) k =
          none
        exact lookup_filter_none _ _ _ h1

theorem applySweeps_stale_none (c : Cache) (sched : Nat → Int) (k : String)
    (e : cacheEntry) (hnd : keysNodup c.entries)
    (hl : lookupEntry c.entries k = some e) (N : Nat)
    (hstale : ttl < sched N - e.createdAt) :
    ∀ n, N < n → lookupEntry (applySweeps c sched n).entries k = none := by
  intro n
  induction n with
  | zero => intro h; exact absurd h (Nat.not_lt_zero N)
  | succ n ih =>
      intro hNn
      show lookupEntry (((applySweeps c sched n).Reap (sched n)).entries) k = none
      by_cases hcase : N = n
      · subst hcase
        rcases applySweeps_lookup_cases c sched k e hnd hl N with h1 | h1
        · apply lookup_filter_killed _ _ e _ (applySweeps_nodup c sched hnd N) h1
          simpa using hstale
        · exact lookup_filter_none _ _ _ h1
      · have hlt : N < n := by omega
        exact lookup_filter_none _ _ _ (ih hlt)

theorem sched_growth (sched : Nat → Int)
    (hlo : ∀ i, sched i + sweepInterval ≤ sched (i + 1)) :
    ∀ i : Nat, sched 0 + i * sweepInterval ≤ sched i := by
  intro i
  induction i with
  | zero => simp
  | succ i ih =>
      have h1 := hlo i
      have h2 : ((i : Int) + 1) * sweepInterval =
          (i : Int) * sweepInterval + sweepInterval := by ring
      push_cast
      push_cast at ih
      linarith

theorem sched_unbounded (sched : Nat → Int)
    (hlo : ∀ i, sched i + sweepInterval ≤ sched (i + 1)) (B : Int) :
    ∃ i, B < sched i := by
  refine ⟨(B + 1 - sched 0).toNat, ?_⟩
  have h1 := sched_growth sched hlo (B + 1 - sched 0).toNat
  have h2 : (B + 1 - sched 0) ≤ (((B + 1 - sched 0).toNat : Nat) : Int) :=
    Int.self_le_toNat _
  have h4 : (1 : Int) ≤ sweepInterval := by norm_num [sweepInterval, minute]
  have h3 : (((B + 1 - sched 0).toNat : Nat) : Int) ≤
      (((B + 1 - sched 0).toNat : Nat) : Int) * sweepInterval :=
    le_mul_of_one_le_right (Int.natCast_nonneg _) h4
  linarith

/-! ### Claim theorems -/

/-- C1: for every key `k` and payload `p`, `Add(k, p)` followed immediately by
`Get(k)` (same state, no intervening call) returns exactly `p`. -/
theorem add_get_roundtrip (c : Cache) (now : Int) (k : String) (p : List Nat) :
    (((c.Add now k p).1).Get k).1 = Except.ok p := by
  simp [Cache.Add, Cache.Get, lookup_update_self]

/-- C2: for every cache state and current time, `Reap` retains exactly the
entries whose age `now - createdAt` is at most `ttl` (5 minutes) and removes
exactly those whose age strictly exceeds it. -/
theorem reap_removes_exactly_stale (c : Cache) (now : Int) (k : String)
    (e : cacheEntry) :
    (k, e) ∈ (c.Reap now).entries ↔
      (k, e) ∈ c.entries ∧ now - e.createdAt ≤ ttl := by
  simp [Cache.Reap, List.mem_filter, not_lt]

/-- C3: an entry added at time `T` is still returned by `Get` after any number
of `Reap` sweeps that all run strictly before `T + ttl` (no sweep removes an
entry before it is stale). -/
theorem expiry_lower_bound (c : Cache) (T : Int) (k : String) (p : List Nat)
    (ts : List Int) (h : ∀ t ∈ ts, t < T + ttl) :
    ((runSweeps ((c.Add T k p).1) ts).Get k).1 = Except.ok p := by
  have hl : lookupEntry ((c.Add T k p).1).entries k = some ⟨T, p⟩ :=
    lookup_update_self _ _ _
  have h2 : lookupEntry (runSweeps ((c.Add T k p).1) ts).entries k =
      some ⟨T, p⟩ := by
    apply runSweeps_lookup k ⟨T, p⟩ ts _ hl
    intro t ht
    have h3 := h t ht
    show t - T ≤ ttl
    omega
  simp [Cache.Get, h2]

/-- Witness for C3 at a concrete input: one sweep at `t = 100` ns, an entry
added at `T = 0`. -/
theorem expiry_lower_bound_witness :
    (∀ t ∈ [(100 : Int)], t < 0 + ttl) ∧
      ((runSweeps ((NewCache.Add 0 "a" [1, 2]).1) [(100 : Int)]).Get "a").1 =
        Except.ok [1, 2] :=
  ⟨by decide, expiry_lower_bound NewCache 0 "a" [1, 2] [(100 : Int)] (by decide)⟩

/-- C5: on a cache with at most one binding per key (the Go map invariant),
`Add(k, p1)` then `Add(k, p2)` leaves exactly one entry for `k`, carrying
payload `p2` and the timestamp of the second `Add`, and `Get(k)` returns
`p2`. -/
theorem add_replaces (c : Cache) (T1 T2 : Int) (k : String)
    (p1 p2 : List Nat) (h : keysNodup c.entries) :
    ((((c.Add T1 k p1).1).Add T2 k p2).1).entries.filter
        (fun q => decide (q.1 = k)) = [(k, ⟨T2, p2⟩)] ∧
      (((((c.Add T1 k p1).1).Add T2 k p2).1).Get k).1 = Except.ok p2 := by
  constructor
  · have h1 : keysNodup (updateEntries c.entries k ⟨T1, p1⟩) :=
      keysNodup_update _ _ _ h
    simpa [Cache.Add] using
      filter_key_update (updateEntries c.entries k ⟨T1, p1⟩) k ⟨T2, p2⟩ h1
  · simp [Cache.Add, Cache.Get, lookup_update_self]

/-- Witness for C5 at a concrete input: two `Add`s of key `a` on the fresh
cache. -/
theorem add_replaces_witness :
    keysNodup NewCache.entries ∧
      ((((NewCache.Add 3 "a" [7]).1).Add 9 "a" [8]).1).entries.filter
          (fun q => decide (q.1 = "a")) = [("a", ⟨9, [8]⟩)] ∧
        (((((NewCache.Add 3 "a" [7]).1).Add 9 "a" [8]).1).Get "a").1 =
          Except.ok [8] :=
  ⟨by decide, add_replaces NewCache 3 9 "a" [7] [8] (by decide)⟩

/-- C6: `Get(k)` on a cache whose history (starting from the fresh cache of
`NewCache`) contains no `Add` with key `k` returns the non-fatal error value
`key not found`. -/
theorem get_miss_unknown_key (ops : List Op) (k : String)
    (h : ∀ o ∈ ops, Op.addsKey o k = false) :
    ((runOps ops).Get k).1 = Except.error "key not found" := by
  have hnone : lookupEntry (runOps ops).entries k = none := by
    simpa [runOps] using runOps_lookup_none k ops NewCache rfl h
  simp [Cache.Get, hnone]

/-- Witness for C6 at a concrete input: a history that adds only key `b`,
queried at key `a`. -/
theorem get_miss_unknown_key_witness :
    (∀ o ∈ [Op.add 0 "b" [1], Op.reap 10], Op.addsKey o "a" = false) ∧
      ((runOps [Op.add 0 "b" [1], Op.reap 10]).Get "a").1 =
        Except.error "key not found" :=
  ⟨by decide, get_miss_unknown_key [Op.add 0 "b" [1], Op.reap 10] "a" (by decide)⟩

/-- C7: `Reap` is idempotent — at a fixed current time, sweeping twice with no
insertion in between equals sweeping once. -/
theorem reap_idempotent (c : Cache) (now : Int) :
    (c.Reap now).Reap now = c.Reap now := by
  obtain ⟨l⟩ := c
  simp [Cache.Reap, List.filter_filter]

/-- C8: `Get` never changes the cache state — on a hit or a miss, the state
returned by the call (second component) is exactly the state it was called on,
every entry keeping its payload and `createdAt`. -/
theorem get_no_side_effect (c : Cache) (k : String) : (c.Get k).2 = c := by
  cases hl : lookupEntry c.entries k <;> simp [Cache.Get, hl]

/-- C9 (amended): `NewCache` starts exactly one reap loop; but `ReapLoop` is
an exported method with no guard, so each further invocation starts one more
loop. -/
theorem reap_loop_lifecycle :
    NewCacheProc.reapLoops = 1 ∧
      ∀ s : CacheProc, (s.callReapLoop).reapLoops = s.reapLoops + 1 :=
  ⟨rfl, fun _ => rfl⟩

/-- C9 counterexample: invoking `ReapLoop` a second time on a freshly
constructed cache succeeds and leaves two reap loops running, refuting
"at most one reaper activity over the cache's lifetime". -/
theorem reap_loop_second_invocation :
    (NewCacheProc.callReapLoop).reapLoops = 2 ∧
      ¬ (NewCacheProc.callReapLoop).reapLoops ≤ 1 := by
  constructor <;> decide

/-- C10: `Reap` never inserts and never alters a survivor — its result is a
sublist of the prior entries, so every retained binding existed before with
the same payload and `createdAt`, and the key set can only shrink. -/
theorem reap_frame (c : Cache) (now : Int) :
    List.Sublist (c.Reap now).entries c.entries ∧
      ∀ k e, (k, e) ∈ (c.Reap now).entries → (k, e) ∈ c.entries := by
  constructor
  · exact List.filter_sublist c.entries
  · intro k e hm
    exact List.mem_of_mem_filter hm

/-- C4: consider a reap loop whose `i`-th sweep runs at time `sched i`, where
the loop starts at construction time `t0`, the first sweep runs within
`sweepInterval + eps` of `t0` (one sleep plus scheduling slack `eps ≥ 0`), and
consecutive sweeps are separated by at least `sweepInterval` and at most
`sweepInterval + eps`.  An entry added at time `T ≥ t0` and never re-added is
guaranteed absent — `Get` returns the `key not found` outcome — after some
sweep `N` that runs no later than `T + ttl + sweepInterval + eps`, and it
stays absent at every later sweep. -/
theorem expiry_upper_bound (c : Cache) (sched : Nat → Int) (t0 T eps : Int)
    (k : String) (p : List Nat) (hnd : keysNodup c.entries) (heps : 0 ≤ eps)
    (h0hi : sched 0 ≤ t0 + sweepInterval + eps)
    (hlo : ∀ i, sched i + sweepInterval ≤ sched (i + 1))
    (hhi : ∀ i, sched (i + 1) ≤ sched i + sweepInterval + eps)
    (hT : t0 ≤ T) :
    ∃ N, sched N ≤ T + ttl + sweepInterval + eps ∧
      ∀ n, N < n →
        ((applySweeps ((c.Add T k p).1) sched n).Get k).1 =
          Except.error "key not found" := by
  have hex : ∃ i, T + ttl < sched i := sched_unbounded sched hlo (T + ttl)
  refine ⟨Nat.find hex, ?_, ?_⟩
  · cases hfind : Nat.find hex with
    | zero =>
        have httl : (0 : Int) ≤ ttl := by norm_num [ttl, minute]
        linarith
    | succ m =>
        have hm : ¬ T + ttl < sched m := Nat.find_min hex (by omega)
        push_neg at hm
        have h2 := hhi m
        linarith
  · intro n hn
    have hl : lookupEntry ((c.Add T k p).1).entries k = some ⟨T, p⟩ :=
      lookup_update_self _ _ _
    have hnd2 : keysNodup ((c.Add T k p).1).entries := keysNodup_update _ _ _ hnd
    have hstale : ttl < sched (Nat.find hex) - (⟨T, p⟩ : cacheEntry).createdAt := by
      have hspec := Nat.find_spec hex
      show ttl < sched (Nat.find hex) - T
      omega
    have hnone := applySweeps_stale_none ((c.Add T k p).1) sched k ⟨T, p⟩ hnd2 hl
      (Nat.find hex) hstale n hn
    simp [Cache.Get, hnone]

/-- Witness for C4 at a concrete input: the ideal zero-slack schedule, cache
constructed at `t0 = 0`, entry `a` added at `T = 0`. -/
theorem expiry_upper_bound_witness :
    ∃ N, idealSched N ≤ 0 + ttl + sweepInterval + 0 ∧
      ∀ n, N < n →
        ((applySweeps ((NewCache.Add 0 "a" [1]).1) idealSched n).Get "a").1 =
          Except.error "key not found" := by
  have hlo : ∀ i, idealSched i + sweepInterval ≤ idealSched (i + 1) := by
    intro i
    have h : ((i : Int) + 1) * sweepInterval + sweepInterval =
        ((i : Int) + 1 + 1) * sweepInterval := by ring
    unfold idealSched
    push_cast
    linarith
  have hhi : ∀ i, idealSched (i + 1) ≤ idealSched i + sweepInterval + 0 := by
    intro i
    have h : ((i : Int) + 1 + 1) * sweepInterval =
        ((i : Int) + 1) * sweepInterval + sweepInterval := by ring
    unfold idealSched
    push_cast
    linarith
  have h0 : idealSched 0 ≤ 0 + sweepInterval + 0 := by
    unfold idealSched
    push_cast
    linarith
  exact expiry_upper_bound NewCache idealSched 0 0 0 "a" [1] (by decide)
    (le_refl 0) h0 hlo hhi (le_refl 0)

end Pokecache
